import Mathlib

/-!
# Verification of the `dee` package-manager wrapper (src/d.ts)

A shallow embedding of the core of the `dee` CLI: the ancestor-directory
walk (`findProjectStructure`), the monorepo test (`isMonorepoRoot`), the
package-manager selector (`detectPackageManager`), the execution-directory
policy (`getExecutionDirectory`), the script probe (`hasScript`), the
command harmonizer (`harmonizeCommand`) and the `main` entry point.

Modelling conventions:
* A filesystem path is represented as its list of components with the
  innermost component first, so the path `/repo/app` is `["app", "repo"]`
  and the filesystem root `/` is `[]`.  With this representation
  `path.dirname` is `List.tail`, `path.join dir file` is `file :: dir`,
  and "ancestor of (or equal to)" is exactly `List.IsSuffix` (`<:+`).
* The filesystem is a pair of oracles: `exists?` models `fs.existsSync`,
  and `parse` models `JSON.parse (fs.readFileSync p)` where `none` stands
  for a read error or a JSON parse error (the source always wraps the
  read and the parse together in a `try` that swallows the exception).
* JavaScript truthiness of parsed JSON values is modelled by
  `JsonValue.truthy`; property access on a non-object yields `none`
  (in the source an access on `null` would throw, but every such access
  is inside the same swallowed `try`, with the same non-qualifying
  outcome).
* `process.exit(1)` inside pure helpers is modelled with `Except Nat`;
  the observable behaviour of `main` is a `MainOutcome`: either a usage
  error with an exit code and no child process, or the spawning of one
  child command line in one working directory.
-/

namespace Dee

/-- A directory or file path, innermost component first; `[]` is the
filesystem root `/`. -/
abbrev Path := List String

/-- A parsed JSON value, as `JSON.parse` can return it. -/
inductive JsonValue where
  | null
  | bool (b : Bool)
  | num (n : Int)
  | str (s : String)
  | arr (elems : List JsonValue)
  | obj (fields : List (String × JsonValue))

/-- JavaScript property access `v[name]` as used by the source on parsed
JSON: a field lookup on objects, `undefined` (here `none`) otherwise. -/
def JsonValue.getField : JsonValue → String → Option JsonValue
  | .obj fields, name => (fields.find? (fun f => f.1 == name)).map (fun f => f.2)
  | _, _ => none

/-- JavaScript truthiness of a JSON value: `null`, `false`, `0` and `""`
are falsy; every array and object (empty or not) is truthy. -/
def JsonValue.truthy : JsonValue → Bool
  | .null => false
  | .bool b => b
  | .num n => n != 0
  | .str s => s != ""
  | .arr _ => true
  | .obj _ => true

/-- Truthiness of an optional JSON value; `none` models `undefined`. -/
def optTruthy : Option JsonValue → Bool
  | none => false
  | some v => v.truthy

/-- The filesystem as seen by the tool: existence checks and
read-and-JSON-parse of files, where `parse p = none` models a read or
parse failure (swallowed by the source's `try`). -/
structure FileSys where
  exists? : Path → Bool
  parse : Path → Option JsonValue

/-- The package managers the tool recognizes (src/d.ts line 10). -/
inductive PackageManager where
  | bun
  | pnpm
  | yarn
  | npm
deriving DecidableEq, Repr

/-- The executable name of a package manager. -/
def PackageManager.toStr : PackageManager → String
  | .bun => "bun"
  | .pnpm => "pnpm"
  | .yarn => "yarn"
  | .npm => "npm"

/-- The seven canonical commands, `SUPPORTED_COMMANDS` (src/d.ts line 7). -/
inductive SupportedCommand where
  | add
  | install
  | run
  | build
  | dev
  | typecheck
  | lint
deriving DecidableEq, Repr

/-- The command-line spelling of a canonical command. -/
def SupportedCommand.toStr : SupportedCommand → String
  | .add => "add"
  | .install => "install"
  | .run => "run"
  | .build => "build"
  | .dev => "dev"
  | .typecheck => "typecheck"
  | .lint => "lint"

/-- `ProjectStructure` (src/d.ts lines 18-22): in the embedding the
`Option` covers the source's `string | null`, and `findProjectStructure`
returning `null` overall is an outer `Option`. -/
structure ProjectStructure where
  localRoot : Path
  monorepoRoot : Option Path
  gitRoot : Option Path
deriving DecidableEq, Repr

/-- Does this directory contain a `.git` entry? (src/d.ts line 33). -/
def hasGitDir (fs : FileSys) (d : Path) : Bool := fs.exists? (".git" :: d)

/-- Does this directory contain a `package.json`? (src/d.ts line 38). -/
def hasManifest (fs : FileSys) (d : Path) : Bool := fs.exists? ("package.json" :: d)

/-- The monorepo indicator files of `isMonorepoRoot` (src/d.ts lines 82-87). -/
def monorepoFiles : List String :=
  ["pnpm-workspace.yaml", "lerna.json", "nx.json", "rush.json"]

/-- The lock-file names checked by `isMonorepoRoot` (src/d.ts line 96). -/
def monorepoLockFiles : List String :=
  ["pnpm-lock.yaml", "yarn.lock", "package-lock.json", "bun.lockb", "bun.lock"]

/-- `isMonorepoRoot` (src/d.ts lines 80-114): an indicator file, or a lock
file together with a manifest whose `workspaces` field is truthy. -/
def isMonorepoRoot (fs : FileSys) (dir : Path) : Bool :=
  if monorepoFiles.any (fun file => fs.exists? (file :: dir)) then
    true
  else if monorepoLockFiles.any (fun file => fs.exists? (file :: dir)) then
    if fs.exists? ("package.json" :: dir) then
      match fs.parse ("package.json" :: dir) with
      | some packageJson => optTruthy (packageJson.getField "workspaces")
      | none => false
    else false
  else false

/-- The `while` loop of `findProjectStructure` (src/d.ts lines 31-51),
with the mutable `gitRoot`, `localRoot` and `packageJsonDirs` threaded as
accumulators.  One step: record a `.git` entry, record a `package.json`
directory (the first one also becomes the local root), then stop early
once both a git root and a manifest directory are known; otherwise move
to the parent, until the filesystem root (which the loop guard excludes)
is reached.  Returns `(gitRoot, localRoot, packageJsonDirs)`. -/
def findLoop (fs : FileSys) :
    Path → Option Path → Option Path → List Path →
    Option Path × Option Path × List Path
  | [], gitRoot, localRoot, pkgDirs => (gitRoot, localRoot, pkgDirs)
  | c :: parent, gitRoot, localRoot, pkgDirs =>
    let cur := c :: parent
    let gitRoot2 := if hasGitDir fs cur then some cur else gitRoot
    let pkgDirs2 := if hasManifest fs cur then pkgDirs ++ [cur] else pkgDirs
    let localRoot2 :=
      if hasManifest fs cur ∧ localRoot = none then some cur else localRoot
    if gitRoot2.isSome ∧ pkgDirs2 ≠ [] then (gitRoot2, localRoot2, pkgDirs2)
    else findLoop fs parent gitRoot2 localRoot2 pkgDirs2

/-- The directories the walk of `findLoop` actually processes, in visit
order (nearest first), with the same early-stop condition.  This is the
"visited" list the specification's walk talks about. -/
def visitedDirs (fs : FileSys) : Path → Option Path → List Path → List Path
  | [], _, _ => []
  | c :: parent, gitRoot, pkgDirs =>
    let cur := c :: parent
    let gitRoot2 := if hasGitDir fs cur then some cur else gitRoot
    let pkgDirs2 := if hasManifest fs cur then pkgDirs ++ [cur] else pkgDirs
    if gitRoot2.isSome ∧ pkgDirs2 ≠ [] then [cur]
    else cur :: visitedDirs fs parent gitRoot2 pkgDirs2

/-- The full ancestor chain of a directory, nearest first, excluding the
filesystem root (the source's loop guard `currentDir !==
path.parse(currentDir).root` never lets the walk process `/`). -/
def ancestorChain : Path → List Path
  | [] => []
  | c :: parent => (c :: parent) :: ancestorChain parent

/-- The monorepo scan over `packageJsonDirs` (src/d.ts lines 61-71): skip
directories outside the git boundary (`dir.startsWith(gitRoot)` on path
strings, which on directories of one ancestor chain is exactly the
ancestor test, here `List.isSuffixOf` in the reversed-component
representation), return the first remaining directory satisfying
`isMonorepoRoot`. -/
def monoScan (fs : FileSys) (gitRoot : Option Path) : List Path → Option Path
  | [] => none
  | dir :: rest =>
    if (match gitRoot with
        | some g => !(List.isSuffixOf g dir)
        | none => false) then
      monoScan fs gitRoot rest
    else if isMonorepoRoot fs dir then some dir
    else monoScan fs gitRoot rest

/-- `findProjectStructure` (src/d.ts lines 24-78). -/
def findProjectStructure (fs : FileSys) (startDir : Path) : Option ProjectStructure :=
  let r := findLoop fs startDir none none []
  match r.2.1 with
  | none => none
  | some localRoot => some ⟨localRoot, monoScan fs r.1 r.2.2, r.1⟩

/-! ## Package Manager Selector (src/d.ts lines 116-159) -/

/-- The path rendered as the absolute path string the source manipulates
(`path.join` of `/`-separated components). -/
def pathStr (p : Path) : String := "/" ++ String.intercalate "/" p.reverse

/-- The ordered lock-file → manager table of `detectPackageManager`
(src/d.ts lines 117-123); `Object.entries` yields insertion order. -/
def detectLockFiles : List (String × PackageManager) :=
  [("bun.lockb", .bun), ("bun.lock", .bun), ("pnpm-lock.yaml", .pnpm),
   ("yarn.lock", .yarn), ("package-lock.json", .npm)]

/-- The result record of `detectPackageManager`. -/
structure PMChoice where
  manager : PackageManager
  reason : String
deriving DecidableEq, Repr

/-- The search priority `[monorepoRoot, localRoot].filter(Boolean)`
(src/d.ts line 126). -/
def searchDirs (s : ProjectStructure) : List Path :=
  (match s.monorepoRoot with
   | some m => [m]
   | none => []) ++ [s.localRoot]

/-- The location word used in reasons: `dir === structure.monorepoRoot ?
'monorepo root' : 'local'` (src/d.ts lines 132 and 147). -/
def locationOf (s : ProjectStructure) (dir : Path) : String :=
  if s.monorepoRoot = some dir then "monorepo root" else "local"

/-- The inner lock-file loop of pass 1 (src/d.ts lines 129-135): the
first entry of the table whose file exists in `dir`. -/
def firstLockIn (fs : FileSys) (dir : Path) : Option (String × PackageManager) :=
  detectLockFiles.find? (fun e => fs.exists? (e.1 :: dir))

/-- Pass 1 of `detectPackageManager` (src/d.ts lines 128-136): scan the
search directories in order; the first directory holding any recognized
lock file decides, with early return. -/
def lockScan (fs : FileSys) (s : ProjectStructure) : List Path → Option PMChoice
  | [] => none
  | dir :: rest =>
    match firstLockIn fs dir with
    | some (lockFile, manager) =>
      some ⟨manager, lockFile ++ " at " ++ locationOf s dir ++ " (" ++
        pathStr (lockFile :: dir) ++ ")"⟩
    | none => lockScan fs s rest

/-- The recognized values for the manifest `packageManager` field
(src/d.ts line 146). -/
def parseManager (s : String) : Option PackageManager :=
  if s = "bun" then some .bun
  else if s = "pnpm" then some .pnpm
  else if s = "yarn" then some .yarn
  else if s = "npm" then some .npm
  else none

/-- The body of pass 2 for one directory (src/d.ts lines 140-154): the
manifest must exist, parse, have a truthy `packageManager` field whose
part before the first `@` is recognized.  A truthy non-string field makes
the source's `.split` throw, which the surrounding `try` swallows with
the same non-qualifying outcome as `none` here. -/
def pmFieldOf (fs : FileSys) (dir : Path) : Option PackageManager :=
  if fs.exists? ("package.json" :: dir) then
    match fs.parse ("package.json" :: dir) with
    | some packageJson =>
      match packageJson.getField "packageManager" with
      | some (.str s) =>
        if s != "" then parseManager ((s.splitOn "@").headD "") else none
      | _ => none
    | none => none
  else none

/-- Pass 2 of `detectPackageManager` (src/d.ts lines 139-155): the first
search directory with a recognized `packageManager` field decides. -/
def fieldScan (fs : FileSys) (s : ProjectStructure) : List Path → Option PMChoice
  | [] => none
  | dir :: rest =>
    match pmFieldOf fs dir with
    | some manager =>
      some ⟨manager, "packageManager field at " ++ locationOf s dir ++ " (" ++
        pathStr ("package.json" :: dir) ++ ")"⟩
    | none => fieldScan fs s rest

/-- `detectPackageManager` (src/d.ts lines 116-159): a full lock-file
pass, then a full manifest-field pass, then the npm fallback. -/
def detectPackageManager (fs : FileSys) (s : ProjectStructure) : PMChoice :=
  match lockScan fs s (searchDirs s) with
  | some c => c
  | none =>
    match fieldScan fs s (searchDirs s) with
    | some c => c
    | none => ⟨.npm, "fallback"⟩

/-! ## Execution directory and script probe (src/d.ts lines 161-203) -/

/-- `rootCommands` (src/d.ts line 163). -/
def rootCommands : List String := ["add", "install"]

/-- `scriptCommands` (src/d.ts line 170). -/
def scriptCommands : List String := ["run", "build", "dev", "typecheck", "lint"]

/-- `hasScript` (src/d.ts lines 191-203): the manifest exists, parses,
and `scripts && scripts[scriptName]` is truthy. -/
def hasScript (fs : FileSys) (scriptName : String) (dir : Path) : Bool :=
  if fs.exists? ("package.json" :: dir) then
    match fs.parse ("package.json" :: dir) with
    | some packageJson =>
      optTruthy (packageJson.getField "scripts") &&
        optTruthy ((packageJson.getField "scripts").bind
          (fun scripts => scripts.getField scriptName))
    | none => false
  else false

/-- `getExecutionDirectory` (src/d.ts lines 161-189).  Note the script
probe is `hasScript(command, …)`: the script name consulted is always the
canonical command name itself, also for `run`. -/
def getExecutionDirectory (fs : FileSys) (command : SupportedCommand)
    (s : ProjectStructure) : Path :=
  if rootCommands.contains command.toStr then
    s.monorepoRoot.getD s.localRoot
  else if scriptCommands.contains command.toStr then
    if hasScript fs command.toStr s.localRoot then s.localRoot
    else
      match s.monorepoRoot with
      | some m => if hasScript fs command.toStr m then m else s.localRoot
      | none => s.localRoot
  else s.localRoot

/-! ## Command Harmonizer and `main` (src/d.ts lines 205-357) -/

/-- `harmonizeCommand` (src/d.ts lines 205-256).  `process.exit(1)` in the
zero-argument `run` case is `Except.error 1`; the `!firstArg` truthiness
test also fires on an explicit empty-string first argument. -/
def harmonizeCommand (command : SupportedCommand) (args : List String)
    (packageManager : PackageManager) : Except Nat (List String) :=
  let firstArg := args.headD ""
  match command with
  | .add =>
    match packageManager with
    | .npm => .ok ("npm" :: "install" :: args)
    | .yarn => .ok ("yarn" :: "add" :: args)
    | .pnpm => .ok ("pnpm" :: "add" :: args)
    | .bun => .ok ("bun" :: "add" :: args)
  | .install =>
    if packageManager = .bun ∧ 0 < args.length then .ok ("bun" :: "add" :: args)
    else .ok (packageManager.toStr :: "install" :: args)
  | .run =>
    if firstArg = "" then .error 1
    else .ok (packageManager.toStr :: "run" :: args)
  | .build => .ok [packageManager.toStr, "run", "build"]
  | .dev => .ok [packageManager.toStr, "run", "dev"]
  | .typecheck => .ok [packageManager.toStr, "run", "typecheck"]
  | .lint => .ok [packageManager.toStr, "run", "lint"]

/-- The `SUPPORTED_COMMANDS.includes` check plus the cast of the first
cleaned argument (src/d.ts lines 312-319). -/
def parseCommand (s : String) : Option SupportedCommand :=
  if s = "add" then some .add
  else if s = "install" then some .install
  else if s = "run" then some .run
  else if s = "build" then some .build
  else if s = "dev" then some .dev
  else if s = "typecheck" then some .typecheck
  else if s = "lint" then some .lint
  else none

/-- The observable outcome of one invocation: a usage-error exit before
any child process, or the spawn of one child command line in one working
directory. -/
inductive MainOutcome where
  | exitError (code : Nat)
  | spawn (tokens : List String) (cwd : Path)
deriving DecidableEq, Repr

/-- The debug-flag stripping `args.filter(arg => arg !== '--debug')`
(src/d.ts line 266). -/
def cleanArgsOf (args : List String) : List String :=
  args.filter (fun a => a != "--debug")

/-- `main` (src/d.ts lines 258-357), up to console output: strip
`--debug`; with no remaining arguments spawn the bare manager from the
local root; otherwise parse the command, resolve the structure, select
the manager, pick the execution directory, harmonize, and spawn. -/
def main (fs : FileSys) (cwd : Path) (args : List String) : MainOutcome :=
  let cleanArgs := cleanArgsOf args
  if cleanArgs.length = 0 then
    match findProjectStructure fs cwd with
    | none => .exitError 1
    | some ps =>
      let choice := detectPackageManager fs ps
      .spawn [choice.manager.toStr] ps.localRoot
  else
    match parseCommand (cleanArgs.headD "") with
    | none => .exitError 1
    | some command =>
      match findProjectStructure fs cwd with
      | none => .exitError 1
      | some ps =>
        let choice := detectPackageManager fs ps
        let executionDir := getExecutionDirectory fs command ps
        match harmonizeCommand command cleanArgs.tail choice.manager with
        | .error code => .exitError code
        | .ok finalCommand => .spawn finalCommand executionDir

/-! ## Claim-side definitions

Two definitions below follow the wording of spec claims rather than the
source, for comparison against the source-derived definitions above. -/

/-- The execution-directory rule exactly as claim C1 words it: for `run`
the script consulted is named by the *first argument*; for the shortcuts
it is the command name; prefer the local root when it declares that
script, else the monorepo root when it declares it, else the local root.
(The source instead always consults the script named like the command.) -/
def specExecutionDirectory (fs : FileSys) (command : SupportedCommand)
    (args : List String) (s : ProjectStructure) : Path :=
  let scriptName :=
    match command with
    | .run => args.headD ""
    | c => c.toStr
  if hasScript fs scriptName s.localRoot then s.localRoot
  else
    match s.monorepoRoot with
    | some m => if hasScript fs scriptName m then m else s.localRoot
    | none => s.localRoot

/-- The lock-file branch of the monorepo test exactly as claim C2 words
it: the manifest must declare a *non-empty* workspaces field, in array
form or in object form with a `packages` array.  (The source instead
only tests JavaScript truthiness, which every array and object passes.) -/
def specMonorepoTest (fs : FileSys) (dir : Path) : Bool :=
  match (fs.parse ("package.json" :: dir)).bind
      (fun packageJson => packageJson.getField "workspaces") with
  | some (.arr elems) => !elems.isEmpty
  | some (.obj fields) =>
    match (JsonValue.obj fields).getField "packages" with
    | some (.arr _) => true
    | _ => false
  | _ => false

/-- The ancestor chain as claim C4 words it: up to *and including* the
filesystem root.  (The source's loop guard stops before the root.) -/
def specAncestorChainWithRoot (p : Path) : List Path :=
  ancestorChain p ++ [[]]

/-! ## Concrete example filesystems (used by counterexamples and
witnesses) -/

/-- `/repo` is a pnpm-workspace monorepo whose manifest declares a `run`
script; `/repo/app` has a manifest declaring only a `build` script. -/
def exC1fs : FileSys where
  exists? := fun p =>
    [["package.json", "app", "repo"], ["package.json", "repo"],
     ["pnpm-workspace.yaml", "repo"]].contains p
  parse := fun p =>
    if p = ["package.json", "app", "repo"] then
      some (.obj [("scripts", .obj [("build", .str "tsc")])])
    else if p = ["package.json", "repo"] then
      some (.obj [("scripts", .obj [("run", .str "echo ok")])])
    else none

/-- `/w` has a `yarn.lock` and a manifest declaring an *empty*
`workspaces` array, and no workspace-indicator file. -/
def exC2fs : FileSys where
  exists? := fun p => [["yarn.lock", "w"], ["package.json", "w"]].contains p
  parse := fun p =>
    if p = ["package.json", "w"] then some (.obj [("workspaces", .arr [])])
    else none

/-- `/w` has a `yarn.lock` and a manifest declaring a non-empty
`workspaces` array. -/
def exC2wfs : FileSys where
  exists? := fun p => [["yarn.lock", "w"], ["package.json", "w"]].contains p
  parse := fun p =>
    if p = ["package.json", "w"] then
      some (.obj [("workspaces", .arr [.str "packages/*"])])
    else none

/-- `/a/.git` and `/.git` exist (the latter is invisible to the walk,
which never probes the filesystem root); `/b/a` is the start. -/
def exC3fs : FileSys where
  exists? := fun p => [[".git", "b", "a"], [".git", "a"]].contains p
  parse := fun _ => none

/-- The only manifest sits at the filesystem root `/`. -/
def exC4fs : FileSys where
  exists? := fun p => p = ["package.json"]
  parse := fun _ => none

/-- A single manifest at `/w`. -/
def exC4wfs : FileSys where
  exists? := fun p => p = ["package.json", "w"]
  parse := fun _ => none

/-- Lock files and `packageManager` fields in both `/repo` (monorepo
root, `yarn.lock`, field `pnpm@8.0.0`) and `/repo/app`
(`package-lock.json`, field `bun@1.0.0`). -/
def exC5fs : FileSys where
  exists? := fun p =>
    [["yarn.lock", "repo"], ["package-lock.json", "app", "repo"],
     ["package.json", "repo"], ["package.json", "app", "repo"]].contains p
  parse := fun p =>
    if p = ["package.json", "repo"] then
      some (.obj [("packageManager", .str "pnpm@8.0.0")])
    else if p = ["package.json", "app", "repo"] then
      some (.obj [("packageManager", .str "bun@1.0.0")])
    else none

/-- A monorepo root `/repo` recognized solely through its workspace
indicator file, containing the package `/repo/app`. -/
def exC9fs : FileSys where
  exists? := fun p =>
    [["package.json", "app", "repo"], ["package.json", "repo"],
     ["lerna.json", "repo"]].contains p
  parse := fun _ => none

/-- A plain single-package project at `/proj` with a `bun.lockb`. -/
def exC10fs : FileSys where
  exists? := fun p =>
    [["package.json", "proj"], ["bun.lockb", "proj"]].contains p
  parse := fun _ => none

/-! ## Lemmas about the ancestor walk -/

/-- The walk's three accumulators, characterized over the list of visited
directories: the final git root is the last visited directory holding a
`.git` entry (falling back to the incoming accumulator), the final local
root is the incoming one or else the first visited manifest directory,
and the manifest-directory list extends the accumulator with every
visited manifest directory in visit order. -/
theorem findLoop_eq (fs : FileSys) :
    ∀ (cur : Path) (g l : Option Path) (pk : List Path),
    findLoop fs cur g l pk =
      (((visitedDirs fs cur g pk).reverse.find? (hasGitDir fs)).or g,
       l.or ((visitedDirs fs cur g pk).find? (hasManifest fs)),
       pk ++ (visitedDirs fs cur g pk).filter (hasManifest fs))
  | [], g, l, pk => by simp [findLoop, visitedDirs]
  | c :: parent, g, l, pk => by
    have ih := findLoop_eq fs parent
    by_cases hg : hasGitDir fs (c :: parent) = true <;>
      by_cases hp : hasManifest fs (c :: parent) = true
    · -- .git and package.json here: the walk surely stops at this step
      cases l <;>
        simp [findLoop, visitedDirs, hg, hp, List.find?_cons_of_pos]
    · -- .git here, no manifest: stop iff some manifest dir is known
      by_cases hpk : pk = []
      · subst hpk
        simp only [findLoop, visitedDirs, hg, hp, if_true, if_false,
          Bool.false_eq_true, ite_false, ite_true, ne_eq, not_true_eq_false,
          Option.isSome_some, true_and, and_false, List.filter_cons]
        rw [ih]
        simp [List.find?_append, List.find?_cons_of_neg, hp, hg,
          Option.or_assoc, List.find?_cons_of_pos]
      · simp [findLoop, visitedDirs, hg, hp, hpk, List.find?_cons_of_neg,
          List.find?_cons_of_pos]
    · -- manifest here, no .git: stop iff a git root is already known
      cases g with
      | some x =>
        cases l <;>
          simp [findLoop, visitedDirs, hg, hp, List.find?_cons_of_pos,
            List.find?_cons_of_neg]
      | none =>
        simp only [findLoop, visitedDirs, hg, hp, if_true, if_false,
          Bool.false_eq_true, ite_false, ite_true, Option.isSome_none,
          false_and, List.filter_cons]
        rw [ih]
        cases l <;>
          simp [List.find?_append, List.find?_cons_of_neg, hp, hg,
            List.find?_cons_of_pos, List.append_assoc]
    · -- neither signal here
      by_cases hb : g.isSome = true ∧ pk ≠ []
      · simp [findLoop, visitedDirs, hg, hp, hb, List.find?_cons_of_neg]
      · simp only [findLoop, visitedDirs, hg, hp, Bool.false_eq_true,
          ite_false, hb, List.filter_cons]
        rw [ih]
        simp [List.find?_append, List.find?_cons_of_neg, hp, hg]

/-- One step of the visited list: the walk either stops at the current
directory or visits it and continues with the updated accumulators. -/
theorem visitedDirs_cases (fs : FileSys) (c : String) (parent : Path)
    (g : Option Path) (pk : List Path) :
    visitedDirs fs (c :: parent) g pk = [c :: parent] ∨
    visitedDirs fs (c :: parent) g pk = (c :: parent) ::
      visitedDirs fs parent
        (if hasGitDir fs (c :: parent) then some (c :: parent) else g)
        (if hasManifest fs (c :: parent) then pk ++ [c :: parent] else pk) := by
  simp only [visitedDirs]
  by_cases hb : ((if hasGitDir fs (c :: parent) then some (c :: parent) else g).isSome = true
      ∧ (if hasManifest fs (c :: parent) then pk ++ [c :: parent] else pk) ≠ [])
  · exact Or.inl (if_pos hb)
  · exact Or.inr (if_neg hb)

/-- Every directory the walk visits is the start directory or one of its
ancestors (a suffix in the reversed-component representation). -/
theorem visited_suffix (fs : FileSys) :
    ∀ (cur : Path) (g : Option Path) (pk : List Path),
    ∀ d ∈ visitedDirs fs cur g pk, d <:+ cur
  | [], _, _ => by simp [visitedDirs]
  | c :: parent, g, pk => by
    intro d hd
    rcases visitedDirs_cases fs c parent g pk with h | h <;> rw [h] at hd
    · rcases List.mem_singleton.mp hd with rfl
      exact List.suffix_rfl
    · rcases List.mem_cons.mp hd with rfl | hd
      · exact List.suffix_rfl
      · exact (visited_suffix fs parent _ _ d hd).trans (List.suffix_cons c parent)

/-- Along the visited list, every later directory is an ancestor of (or
equal to) every earlier one. -/
theorem visited_pairwise (fs : FileSys) :
    ∀ (cur : Path) (g : Option Path) (pk : List Path),
    (visitedDirs fs cur g pk).Pairwise (fun a b => b <:+ a)
  | [], _, _ => by simp [visitedDirs]
  | c :: parent, g, pk => by
    rcases visitedDirs_cases fs c parent g pk with h | h <;> rw [h]
    · simp
    · exact List.pairwise_cons.mpr
        ⟨fun d hd => (visited_suffix fs parent _ _ d hd).trans
            (List.suffix_cons c parent),
          visited_pairwise fs parent _ _⟩

/-- In a list whose later elements are all related to earlier ones by
`R`, the element `find?` returns is related to every other matching
element (or equal to it). -/
theorem find?_min {α : Type} (R : α → α → Prop) (p : α → Bool) :
    ∀ (L : List α), L.Pairwise R → ∀ r, L.find? p = some r →
    ∀ d ∈ L, p d = true → R r d ∨ r = d
  | [], _, r, hfind => by simp at hfind
  | a :: t, hpw, r, hfind => by
    intro d hd hpd
    rcases List.pairwise_cons.mp hpw with ⟨ha, hpwt⟩
    by_cases hpa : p a = true
    · rw [List.find?_cons_of_pos _ hpa] at hfind
      injection hfind with hfind
      subst hfind
      rcases List.mem_cons.mp hd with rfl | hd
      · exact Or.inr rfl
      · exact Or.inl (ha d hd)
    · rw [List.find?_cons_of_neg _ hpa] at hfind
      rcases List.mem_cons.mp hd with rfl | hd
      · exact absurd hpd hpa
      · exact find?_min R p t hpwt r hfind d hd hpd

/-- Started with an empty manifest-directory accumulator, the walk's
first manifest directory is the first manifest directory of the full
ancestor chain: the early stop can never hide a nearer manifest. -/
theorem visited_find?_chain (fs : FileSys) :
    ∀ (cur : Path) (g : Option Path),
    (visitedDirs fs cur g []).find? (hasManifest fs) =
      (ancestorChain cur).find? (hasManifest fs)
  | [], _ => by simp [visitedDirs, ancestorChain]
  | c :: parent, g => by
    by_cases hp : hasManifest fs (c :: parent) = true
    · rcases visitedDirs_cases fs c parent g [] with h | h <;> rw [h] <;>
        simp only [ancestorChain] <;>
        rw [List.find?_cons_of_pos _ hp, List.find?_cons_of_pos _ hp]
    · have h : visitedDirs fs (c :: parent) g [] =
          (c :: parent) :: visitedDirs fs parent
            (if hasGitDir fs (c :: parent) then some (c :: parent) else g) [] := by
        simp [visitedDirs, hp]
      rw [h]
      simp only [ancestorChain]
      rw [List.find?_cons_of_neg _ hp, List.find?_cons_of_neg _ hp]
      exact visited_find?_chain fs parent _

/-- The monorepo scan only ever returns a member of the scanned list. -/
theorem monoScan_mem (fs : FileSys) (g : Option Path) :
    ∀ (L : List Path) (m : Path), monoScan fs g L = some m → m ∈ L
  | [], m, h => by simp [monoScan] at h
  | dir :: rest, m, h => by
    simp only [monoScan] at h
    split at h
    · exact List.mem_cons_of_mem _ (monoScan_mem fs g rest m h)
    · split at h
      · injection h with h
        exact h ▸ List.mem_cons_self _ _
      · exact List.mem_cons_of_mem _ (monoScan_mem fs g rest m h)

/-- `findLoop_eq` at the actual call site of `findProjectStructure`,
where all accumulators start empty. -/
theorem findLoop_start (fs : FileSys) (startDir : Path) :
    findLoop fs startDir none none [] =
      ((visitedDirs fs startDir none []).reverse.find? (hasGitDir fs),
       (visitedDirs fs startDir none []).find? (hasManifest fs),
       (visitedDirs fs startDir none []).filter (hasManifest fs)) := by
  rw [findLoop_eq]
  simp

/-- `findProjectStructure` through the visited-list characterization. -/
theorem findProjectStructure_eq (fs : FileSys) (startDir : Path) :
    findProjectStructure fs startDir =
      match (visitedDirs fs startDir none []).find? (hasManifest fs) with
      | none => none
      | some localRoot =>
        some ⟨localRoot,
          monoScan fs ((visitedDirs fs startDir none []).reverse.find? (hasGitDir fs))
            ((visitedDirs fs startDir none []).filter (hasManifest fs)),
          (visitedDirs fs startDir none []).reverse.find? (hasGitDir fs)⟩ := by
  simp only [findProjectStructure, findLoop_start]

/-! ## Lemmas about the Package Manager Selector -/

/-- Pass 1 fails exactly when no search directory holds any recognized
lock file. -/
theorem lockScan_eq_none_iff (fs : FileSys) (s : ProjectStructure) :
    ∀ (L : List Path),
    lockScan fs s L = none ↔ ∀ d ∈ L, firstLockIn fs d = none
  | [] => by simp [lockScan]
  | dir :: rest => by
    cases h : firstLockIn fs dir with
    | some e => simp [lockScan, h]
    | none => simp [lockScan, h, lockScan_eq_none_iff fs s rest]

/-- Pass 1 never looks at file contents: it is invariant under any
change of the parse oracle. -/
theorem lockScan_parse_blind (ex : Path → Bool)
    (parse1 parse2 : Path → Option JsonValue) (s : ProjectStructure) :
    ∀ (L : List Path),
    lockScan ⟨ex, parse1⟩ s L = lockScan ⟨ex, parse2⟩ s L
  | [] => by simp [lockScan]
  | dir :: rest => by
    cases h : firstLockIn ⟨ex, parse1⟩ dir with
    | some e =>
      have h2 : firstLockIn ⟨ex, parse2⟩ dir = some e := h
      simp [lockScan, h, h2]
    | none =>
      have h2 : firstLockIn ⟨ex, parse2⟩ dir = none := h
      simp [lockScan, h, h2, lockScan_parse_blind ex parse1 parse2 s rest]

/-! ## Lemmas about the Command Harmonizer -/

/-- Every token of a harmonized command line is a fixed keyword or one
of the caller's arguments. -/
theorem harmonize_tokens (command : SupportedCommand) (args : List String)
    (pm : PackageManager) (toks : List String)
    (h : harmonizeCommand command args pm = .ok toks) :
    ∀ x ∈ toks,
      x ∈ ["npm", "yarn", "pnpm", "bun", "install", "add", "run", "build",
           "dev", "typecheck", "lint"] ∨ x ∈ args := by
  intro x hx
  cases command <;> cases pm <;>
    simp only [harmonizeCommand, PackageManager.toStr] at h <;>
    try split at h
  all_goals
    first
    | exact Except.noConfusion h
    | (injection h with h
       subst h
       simp only [List.mem_cons, List.not_mem_nil, or_false] at hx
       rcases hx with rfl | rfl | hx
       · simp
       · simp
       · exact Or.inr hx)
    | (injection h with h
       subst h
       simp only [List.mem_cons, List.not_mem_nil, or_false] at hx
       rcases hx with rfl | rfl | rfl
       · simp
       · simp
       · simp)

/-! ## Claims -/

/-- C3: During the ancestor walk, the recorded git boundary is the last
version-control marker directory seen while walking upward before the
walk stops, i.e. the farthest such directory from the start among those
visited (the walk keeps overwriting the candidate until termination). -/
theorem c3_git_boundary_last_seen (fs : FileSys) (startDir : Path) :
    (findLoop fs startDir none none []).1 =
      (visitedDirs fs startDir none []).reverse.find? (hasGitDir fs)
    ∧ (∀ s, findProjectStructure fs startDir = some s →
        s.gitRoot = (visitedDirs fs startDir none []).reverse.find? (hasGitDir fs))
    ∧ (∀ d ∈ visitedDirs fs startDir none [], hasGitDir fs d = true →
        ∃ r, (findLoop fs startDir none none []).1 = some r ∧ r <:+ d) := by
  refine ⟨?_, ?_, ?_⟩
  · rw [findLoop_start]
  · intro s hs
    rw [findProjectStructure_eq] at hs
    cases h : (visitedDirs fs startDir none []).find? (hasManifest fs) with
    | none =>
      simp only [h] at hs
      exact Option.noConfusion hs
    | some lr =>
      simp only [h] at hs
      injection hs with hs
      subst hs
      rfl
  · intro d hd hgit
    have hsome : ((visitedDirs fs startDir none []).reverse.find? (hasGitDir fs)).isSome := by
      rw [List.find?_isSome]
      exact ⟨d, List.mem_reverse.mpr hd, hgit⟩
    obtain ⟨r, hr⟩ := Option.isSome_iff_exists.mp hsome
    refine ⟨r, ?_, ?_⟩
    · rw [findLoop_start]
      exact hr
    · have hpw : (visitedDirs fs startDir none []).reverse.Pairwise
          (fun a b => a <:+ b) :=
        List.pairwise_reverse.mpr (visited_pairwise fs startDir none [])
      rcases find?_min (fun a b => a <:+ b) (hasGitDir fs) _ hpw r hr d
          (List.mem_reverse.mpr hd) hgit with h | h
      · exact h
      · subst h
        exact List.suffix_rfl

/-- C3 witness: with `.git` both at `/a` and at `/a/b` and a walk starting
at `/a/b` that never stops early, the recorded boundary is `/a`, the
farthest marker directory visited. -/
theorem c3_witness :
    (findLoop exC3fs ["b", "a"] none none []).1 = some ["a"] ∧
    ∃ r, (findLoop exC3fs ["b", "a"] none none []).1 = some r ∧
      r <:+ ["b", "a"] := by
  constructor
  · rw [(c3_git_boundary_last_seen exC3fs ["b", "a"]).1]
    decide
  · exact (c3_git_boundary_last_seen exC3fs ["b", "a"]).2.2 ["b", "a"]
      (by decide) (by decide)

/-- C4 counterexample: the claim includes the filesystem root in the
chain searched for a manifest, but the source's loop guard stops before
the root: with the only manifest at `/`, the resolver returns absent. -/
theorem c4_counterexample :
    exC4fs.exists? ("package.json" :: ([] : Path)) = true ∧
    ([] : Path) ∈ specAncestorChainWithRoot ["a"] ∧
    findProjectStructure exC4fs ["a"] = none := by decide

/-- C4 amended: the resolver returns a non-absent structure iff some
directory on the ancestor chain of the starting directory — including
the starting directory itself but excluding the filesystem root —
contains a manifest file; when it does, localRoot is the nearest such
directory. -/
theorem c4_structure_amended (fs : FileSys) (startDir : Path) :
    ((findProjectStructure fs startDir).isSome ↔
      ∃ d ∈ ancestorChain startDir, hasManifest fs d = true)
    ∧ (∀ s, findProjectStructure fs startDir = some s →
        some s.localRoot = (ancestorChain startDir).find? (hasManifest fs)) := by
  have hchain := visited_find?_chain fs startDir none
  constructor
  · rw [findProjectStructure_eq]
    cases h : (visitedDirs fs startDir none []).find? (hasManifest fs) with
    | none =>
      have hc : (ancestorChain startDir).find? (hasManifest fs) = none :=
        hchain.symm.trans h
      simp only [h, Option.isSome_none, Bool.false_eq_true, false_iff]
      rintro ⟨d, hd, hpd⟩
      have := List.find?_eq_none.mp hc d hd
      simp [hpd] at this
    | some lr =>
      have hc : (ancestorChain startDir).find? (hasManifest fs) = some lr :=
        hchain.symm.trans h
      simp only [h, Option.isSome_some, true_iff]
      exact ⟨lr, List.mem_of_find?_eq_some hc, List.find?_some hc⟩
  · intro s hs
    rw [findProjectStructure_eq] at hs
    cases h : (visitedDirs fs startDir none []).find? (hasManifest fs) with
    | none =>
      simp only [h] at hs
      exact Option.noConfusion hs
    | some lr =>
      simp only [h] at hs
      injection hs with hs
      rw [← hs]
      exact (hchain.symm.trans h).symm

/-- C4 witness: a single manifest at `/w` makes the structure present,
with `/w` as the nearest manifest directory. -/
theorem c4_witness :
    (findProjectStructure exC4wfs ["w"]).isSome = true ∧
    some (["w"] : Path) = (ancestorChain ["w"]).find? (hasManifest exC4wfs) := by
  constructor
  · exact (c4_structure_amended exC4wfs ["w"]).1.mpr ⟨["w"], by decide, by decide⟩
  · exact (c4_structure_amended exC4wfs ["w"]).2 ⟨["w"], none, none⟩ (by decide)

/-- C6: for every resolved ProjectStructure in which monorepoRoot is
present, monorepoRoot equals localRoot or is an ancestor directory of
localRoot (a suffix in the reversed-component representation); it is
never a proper descendant of localRoot. -/
theorem c6_monorepo_is_ancestor (fs : FileSys) (startDir : Path)
    (s : ProjectStructure) (m : Path)
    (hs : findProjectStructure fs startDir = some s)
    (hm : s.monorepoRoot = some m) :
    m <:+ s.localRoot ∧ (s.localRoot <:+ m → m = s.localRoot) := by
  rw [findProjectStructure_eq] at hs
  cases h : (visitedDirs fs startDir none []).find? (hasManifest fs) with
  | none =>
    simp only [h] at hs
    exact Option.noConfusion hs
  | some lr =>
    simp only [h] at hs
    injection hs with hs
    subst hs
    have hmem := monoScan_mem fs _ _ m hm
    rw [List.mem_filter] at hmem
    have hsuf : m <:+ lr := by
      rcases find?_min (fun a b => b <:+ a) (hasManifest fs) _
          (visited_pairwise fs startDir none []) lr h m hmem.1 hmem.2 with h2 | h2
      · exact h2
      · subst h2
        exact List.suffix_rfl
    refine ⟨hsuf, fun h2 => ?_⟩
    exact hsuf.sublist.eq_of_length
      (Nat.le_antisymm hsuf.length_le h2.length_le)

/-- C6 witness: in the `/repo` monorepo, `/repo` is an ancestor of the
local root `/repo/app`. -/
theorem c6_witness : (["repo"] : Path) <:+ ["app", "repo"] :=
  (c6_monorepo_is_ancestor exC1fs ["app", "repo"]
    ⟨["app", "repo"], some ["repo"], none⟩ ["repo"] (by decide) rfl).1

/-- C9: for every resolved ProjectStructure in which monorepoRoot is
present, the monorepo root directory itself contains a manifest file,
because monorepo candidates are drawn only from the directories in which
a manifest was found during the walk. -/
theorem c9_monorepo_has_manifest (fs : FileSys) (startDir : Path)
    (s : ProjectStructure) (m : Path)
    (hs : findProjectStructure fs startDir = some s)
    (hm : s.monorepoRoot = some m) :
    hasManifest fs m = true := by
  rw [findProjectStructure_eq] at hs
  cases h : (visitedDirs fs startDir none []).find? (hasManifest fs) with
  | none =>
    simp only [h] at hs
    exact Option.noConfusion hs
  | some lr =>
    simp only [h] at hs
    injection hs with hs
    subst hs
    exact (List.mem_filter.mp (monoScan_mem fs _ _ m hm)).2

/-- C9 witness: `/repo` qualifies solely through `lerna.json`, and it
does contain a manifest. -/
theorem c9_witness : hasManifest exC9fs ["repo"] = true :=
  c9_monorepo_has_manifest exC9fs ["app", "repo"]
    ⟨["app", "repo"], some ["repo"], none⟩ ["repo"] (by decide) rfl

/-- C1 counterexample: for `run` the claim consults the script named by
the first argument, but the source consults a script literally named
`run`.  With the local manifest declaring only `build` and the monorepo
manifest declaring `run`, the claim picks the local root while the code
picks the monorepo root for `run build`. -/
theorem c1_counterexample :
    findProjectStructure exC1fs ["app", "repo"] =
      some ⟨["app", "repo"], some ["repo"], none⟩ ∧
    hasScript exC1fs "build" ["app", "repo"] = true ∧
    specExecutionDirectory exC1fs SupportedCommand.run ["build"]
      ⟨["app", "repo"], some ["repo"], none⟩ = ["app", "repo"] ∧
    getExecutionDirectory exC1fs SupportedCommand.run
      ⟨["app", "repo"], some ["repo"], none⟩ = ["repo"] := by decide

/-- C1 amended: for every command in run, build, dev, typecheck, lint,
the execution directory is the local root if the local manifest declares
a script named exactly like the canonical command (for `run` this is the
literal script name `run`; the arguments are never consulted); otherwise
the monorepo root if present and its manifest declares that script;
otherwise the local root. -/
theorem c1_exec_dir_amended (fs : FileSys) (s : ProjectStructure)
    (cmd : SupportedCommand)
    (h : cmd ∈ [SupportedCommand.run, .build, .dev, .typecheck, .lint]) :
    getExecutionDirectory fs cmd s =
      (if hasScript fs cmd.toStr s.localRoot then s.localRoot
       else
         match s.monorepoRoot with
         | some m => if hasScript fs cmd.toStr m then m else s.localRoot
         | none => s.localRoot) := by
  fin_cases h <;>
    · simp only [getExecutionDirectory, SupportedCommand.toStr]
      rw [if_neg (by decide), if_pos (by decide)]

/-- C1 witness: the amended rule applied to the `run` command in the
`/repo` monorepo. -/
theorem c1_witness :
    getExecutionDirectory exC1fs SupportedCommand.run
        ⟨["app", "repo"], some ["repo"], none⟩ =
      (if hasScript exC1fs SupportedCommand.run.toStr ["app", "repo"] then
        (["app", "repo"] : Path)
       else
         match (some ["repo"] : Option Path) with
         | some m =>
           if hasScript exC1fs SupportedCommand.run.toStr m then m
           else ["app", "repo"]
         | none => ["app", "repo"]) :=
  c1_exec_dir_amended exC1fs ⟨["app", "repo"], some ["repo"], none⟩
    SupportedCommand.run (by decide)

/-- C2 counterexample: a directory with a lock file, a manifest declaring
an empty `workspaces` array and no workspace-indicator file.  The claim
calls it non-qualifying, but JavaScript truthiness of an empty array
makes the source qualify it. -/
theorem c2_counterexample :
    isMonorepoRoot exC2fs ["w"] = true ∧
    specMonorepoTest exC2fs ["w"] = false ∧
    exC2fs.exists? ("yarn.lock" :: ["w"]) = true ∧
    exC2fs.exists? ("package.json" :: ["w"]) = true ∧
    (∀ f ∈ monorepoFiles, exC2fs.exists? (f :: ["w"]) = false) := by decide

/-- C2 amended: for a directory with at least one recognized lock file
and a manifest but none of the fixed workspace-indicator files, the
monorepo test qualifies the directory iff the manifest parses and
declares a `workspaces` field with a truthy value (any array or object,
empty included; a non-empty string; a nonzero number; `true`); a parse
failure or a missing field is non-qualifying. -/
theorem c2_monorepo_test_amended (fs : FileSys) (dir : Path)
    (hind : ∀ f ∈ monorepoFiles, fs.exists? (f :: dir) = false)
    (hlock : ∃ f ∈ monorepoLockFiles, fs.exists? (f :: dir) = true)
    (hman : fs.exists? ("package.json" :: dir) = true) :
    isMonorepoRoot fs dir =
      optTruthy ((fs.parse ("package.json" :: dir)).bind
        (fun packageJson => packageJson.getField "workspaces")) := by
  have h1 : monorepoFiles.any (fun file => fs.exists? (file :: dir)) = false := by
    rw [List.any_eq_false]
    intro f hf
    simp [hind f hf]
  have h2 : monorepoLockFiles.any (fun file => fs.exists? (file :: dir)) = true := by
    rw [List.any_eq_true]
    obtain ⟨f, hf, hx⟩ := hlock
    exact ⟨f, hf, hx⟩
  simp only [isMonorepoRoot, h1, h2, hman, Bool.false_eq_true, if_false,
    if_true, ite_true, ite_false]
  cases hp : fs.parse ("package.json" :: dir) <;> simp [hp, optTruthy]

/-- C2 witness: the amended rule applied to a directory with a lock file
and a manifest declaring a non-empty workspaces array. -/
theorem c2_witness :
    isMonorepoRoot exC2wfs ["w"] =
      optTruthy ((exC2wfs.parse ("package.json" :: ["w"])).bind
        (fun packageJson => packageJson.getField "workspaces")) :=
  c2_monorepo_test_amended exC2wfs ["w"] (by decide)
    ⟨"yarn.lock", by decide, by decide⟩ (by decide)

/-- C5: the selector searches directories in the priority order
monorepo root then local root, and a full lock-file pass over all search
directories precedes any manifest-field pass: a lock file anywhere wins
over every `packageManager` field (the result does not depend on file
contents at all), and when the same kind of signal qualifies in both
directories the monorepo root's signal decides. -/
theorem c5_selector_priority (fs : FileSys) (s : ProjectStructure) :
    ((∃ d ∈ searchDirs s, (firstLockIn fs d).isSome = true) →
      (∃ c, lockScan fs s (searchDirs s) = some c ∧
        detectPackageManager fs s = c) ∧
      ∀ parse2, detectPackageManager ⟨fs.exists?, parse2⟩ s =
        detectPackageManager fs s)
    ∧ (∀ m lf mgr, s.monorepoRoot = some m →
        firstLockIn fs m = some (lf, mgr) →
        detectPackageManager fs s =
          ⟨mgr, lf ++ " at " ++ "monorepo root" ++ " (" ++
            pathStr (lf :: m) ++ ")"⟩)
    ∧ ((∀ d ∈ searchDirs s, firstLockIn fs d = none) →
        ∀ m mgr, s.monorepoRoot = some m → pmFieldOf fs m = some mgr →
        detectPackageManager fs s =
          ⟨mgr, "packageManager field at " ++ "monorepo root" ++ " (" ++
            pathStr ("package.json" :: m) ++ ")"⟩) := by
  refine ⟨?_, ?_, ?_⟩
  · rintro ⟨d, hd, hsome⟩
    cases hl : lockScan fs s (searchDirs s) with
    | none =>
      exfalso
      have := (lockScan_eq_none_iff fs s _).mp hl d hd
      rw [this] at hsome
      simp at hsome
    | some c =>
      constructor
      · exact ⟨c, rfl, by simp [detectPackageManager, hl]⟩
      · intro parse2
        have hb : lockScan ⟨fs.exists?, parse2⟩ s (searchDirs s) = some c := by
          have hblind := lockScan_parse_blind fs.exists? parse2 fs.parse s
            (searchDirs s)
          rw [hblind]
          exact hl
        simp [detectPackageManager, hb, hl]
  · intro m lf mgr hm hfl
    have hsd : searchDirs s = m :: [s.localRoot] := by simp [searchDirs, hm]
    simp [detectPackageManager, hsd, lockScan, hfl, locationOf, hm]
  · intro hnone m mgr hm hpf
    have hl : lockScan fs s (searchDirs s) = none :=
      (lockScan_eq_none_iff fs s _).mpr hnone
    have hsd : searchDirs s = m :: [s.localRoot] := by simp [searchDirs, hm]
    rw [hsd] at hl
    simp only [detectPackageManager, hsd]
    simp [hl, fieldScan, hpf, locationOf, hm]

/-- C5 witness: with lock files and `packageManager` fields in both the
monorepo root and the local root, the monorepo root's `yarn.lock`
decides. -/
theorem c5_witness :
    detectPackageManager exC5fs ⟨["app", "repo"], some ["repo"], none⟩ =
      ⟨PackageManager.yarn, "yarn.lock" ++ " at " ++ "monorepo root" ++ " (" ++
        pathStr ("yarn.lock" :: ["repo"]) ++ ")"⟩ :=
  (c5_selector_priority exC5fs ⟨["app", "repo"], some ["repo"], none⟩).2.1
    ["repo"] "yarn.lock" PackageManager.yarn rfl (by decide)

/-- C7: invoking `run` with zero arguments after stripping the debug
flag is a fatal usage error: the process exits with code 1 without
spawning any child process, and harmonization never produces a command
line for it (the zero-argument check rejects it with the exit code). -/
theorem c7_run_requires_script_name :
    (∀ (fs : FileSys) (cwd : Path) (args : List String),
      cleanArgsOf args = ["run"] →
      main fs cwd args = MainOutcome.exitError 1)
    ∧ ∀ pm : PackageManager,
        harmonizeCommand SupportedCommand.run [] pm = Except.error 1 := by
  constructor
  · intro fs cwd args h
    simp only [main, h]
    cases hps : findProjectStructure fs cwd <;>
      simp [parseCommand, harmonizeCommand, hps]
  · intro pm
    rfl

/-- C7 witness: `run --debug` from `/proj` exits with code 1 and spawns
nothing. -/
theorem c7_witness :
    cleanArgsOf ["run", "--debug"] = ["run"] ∧
    main exC10fs ["proj"] ["run", "--debug"] = MainOutcome.exitError 1 :=
  ⟨by decide, c7_run_requires_script_name.1 exC10fs ["proj"]
    ["run", "--debug"] (by decide)⟩

/-- C8: under bun, `install` with at least one argument harmonizes to
`bun add <args>` while `install` with no arguments harmonizes to
`bun install`; under every other manager `install` always harmonizes to
`<manager> install <args>`. -/
theorem c8_install_harmonization (args : List String) (pm : PackageManager) :
    (args ≠ [] →
      harmonizeCommand SupportedCommand.install args PackageManager.bun =
        Except.ok ("bun" :: "add" :: args))
    ∧ harmonizeCommand SupportedCommand.install [] pm =
        Except.ok [pm.toStr, "install"]
    ∧ (pm ≠ PackageManager.bun →
        harmonizeCommand SupportedCommand.install args pm =
          Except.ok (pm.toStr :: "install" :: args)) := by
  refine ⟨?_, ?_, ?_⟩
  · intro h
    cases args with
    | nil => exact absurd rfl h
    | cons a t => simp [harmonizeCommand]
  · simp [harmonizeCommand]
  · intro h
    simp [harmonizeCommand, h]

/-- C8 witness: the three install cases at concrete inputs. -/
theorem c8_witness :
    harmonizeCommand SupportedCommand.install ["react"] PackageManager.bun =
      Except.ok ["bun", "add", "react"] ∧
    harmonizeCommand SupportedCommand.install [] PackageManager.yarn =
      Except.ok ["yarn", "install"] ∧
    harmonizeCommand SupportedCommand.install ["react"] PackageManager.pnpm =
      Except.ok ["pnpm", "install", "react"] :=
  ⟨(c8_install_harmonization ["react"] PackageManager.bun).1 (by decide),
   (c8_install_harmonization [] PackageManager.yarn).2.1,
   (c8_install_harmonization ["react"] PackageManager.pnpm).2.2 (by decide)⟩

/-- C10: every occurrence of the exact token `--debug` is removed before
command parsing, the spawned child command line never contains that
token, and `run --debug` is treated as `run` with zero arguments, a
usage error with exit code 1. -/
theorem c10_debug_stripping :
    (∀ args : List String, "--debug" ∉ cleanArgsOf args)
    ∧ (∀ (fs : FileSys) (cwd : Path) (args toks : List String) (dir : Path),
        main fs cwd args = MainOutcome.spawn toks dir → "--debug" ∉ toks)
    ∧ (∀ (fs : FileSys) (cwd : Path),
        main fs cwd ["run", "--debug"] = MainOutcome.exitError 1) := by
  have hclean : ∀ args : List String, "--debug" ∉ cleanArgsOf args := by
    intro args h
    rw [cleanArgsOf, List.mem_filter] at h
    simp at h
  refine ⟨hclean, ?_, ?_⟩
  · intro fs cwd args toks dir h
    simp only [main] at h
    split at h
    · split at h
      · exact MainOutcome.noConfusion h
      · injection h with h1 h2
        subst h1
        rename_i ps heqps
        generalize (detectPackageManager fs ps).manager = pm
        cases pm <;> simp [PackageManager.toStr]
    · split at h
      · exact MainOutcome.noConfusion h
      · split at h
        · exact MainOutcome.noConfusion h
        · split at h
          · exact MainOutcome.noConfusion h
          · rename_i command ps finalCommand heq
            injection h with h1 h2
            subst h1
            intro hx
            rcases harmonize_tokens _ _ _ _ heq "--debug" hx with hfix | hargs
            · simp at hfix
            · exact hclean args (List.mem_of_mem_tail hargs)
  · intro fs cwd
    have hc : cleanArgsOf ["run", "--debug"] = ["run"] := by decide
    simp only [main, hc]
    cases hps : findProjectStructure fs cwd <;>
      simp [parseCommand, harmonizeCommand, hps]

/-- C10 witness: a spawned `bun install` command line carries no
`--debug` token even though the invocation contained the flag. -/
theorem c10_witness : "--debug" ∉ (["bun", "install"] : List String) :=
  c10_debug_stripping.2.1 exC10fs ["proj"] ["--debug", "install"]
    ["bun", "install"] ["proj"] (by decide)

end Dee
